import Mathlib

/-!
Verification of the unifi-protect-event-manager scheduler, export executor and
video combiner (src/src/unifi_protect_event_manager.py).

The Python program is embedded shallowly:

* `datetime` instants become `Int` (seconds); `timedelta(minutes=m)` becomes
  `60 * m` seconds.
* The two dictionaries `self.events` and `self.timers` become association
  lists (`List (String × _)`); Python dict assignment replaces an existing
  binding in place and appends a fresh binding at the end, `del`/`pop` remove
  the binding, which the functions `insertA`/`eraseA` mirror.
* `threading.Timer` handles become `TimerHandle` values carrying a unique id
  and the instant the timer was armed for; `handle.cancel()` is recorded in a
  `cancelled` list (cancellation of the underlying primitive is best-effort,
  so the model lets any armed callback fire regardless - the pop in
  `execute_export` is the only authoritative guard, as in the source).
* `self.event_lock` is a non-reentrant `threading.Lock`; acquiring it while
  it is already held by the running call blocks forever.  Every operation
  therefore returns `Except LockFail _`, where `.error .deadlock` marks an
  execution that never returns.
-/

namespace UPEM

/-- The lone failure of the in-memory scheduler: re-acquiring the
non-reentrant `threading.Lock` from the thread that already holds it. -/
inductive LockFail where
  | deadlock
deriving Repr, DecidableEq

/-- One event window, the value stored in `self.events[identifier]`
(`start_time`, `end_time`, `cameras`).  `cameras` is `none` when the Python
value is `None`. -/
structure EventWindow where
  start_time : Int
  end_time : Int
  cameras : Option (List String)
deriving Repr, DecidableEq

/-- A `threading.Timer` handle: a unique id and the instant it was armed to
fire at (`end_time` of the window at arming time). -/
structure TimerHandle where
  tid : Nat
  fireAt : Int
deriving Repr, DecidableEq

/-- Process-wide configuration relevant to the scheduler
(`UPEM_DEFAULT_PAST_MINUTES`, `UPEM_DEFAULT_FUTURE_MINUTES`). -/
structure Config where
  DEFAULT_PAST_MINUTES : Int
  DEFAULT_FUTURE_MINUTES : Int
deriving Repr, DecidableEq

/-- The mutable state of `UnifiProtectEventManager`:

* `events`, `timers` mirror the two dictionaries;
* `cancelled` records ids of timer handles on which `.cancel()` was called;
* `nextTimer` supplies fresh timer ids (`Timer(...)` construction);
* `lockHeld` tracks `self.event_lock`;
* `exports` logs each `(identifier, window)` snapshot that reached the
  export step of `execute_export` (popped while present). -/
structure MState where
  events : List (String × EventWindow)
  timers : List (String × TimerHandle)
  cancelled : List Nat
  nextTimer : Nat
  lockHeld : Bool
  exports : List (String × EventWindow)
deriving Repr, DecidableEq

/-- Fresh manager state (`self.events = {}`, `self.timers = {}`). -/
def initState : MState :=
  { events := [], timers := [], cancelled := [], nextTimer := 0,
    lockHeld := false, exports := [] }

/-- Dictionary lookup `d.get(k)` / `d[k]` on the association-list model. -/
def lookupA {α : Type} : List (String × α) → String → Option α
  | [], _ => none
  | (k, v) :: rest, key => if k = key then some v else lookupA rest key

/-- Dictionary assignment `d[k] = v`: replace in place if the key is bound,
else append a new binding (insertion order, as Python dicts preserve it). -/
def insertA {α : Type} : List (String × α) → String → α → List (String × α)
  | [], key, v => [(key, v)]
  | (k, w) :: rest, key, v =>
      if k = key then (key, v) :: rest else (k, w) :: insertA rest key v

/-- Dictionary deletion `del d[k]` / `d.pop(k, None)`: remove the binding if
present, otherwise leave the list unchanged.  A dict never holds duplicate
keys, so removal is modelled as dropping every binding of the key. -/
def eraseA {α : Type} : List (String × α) → String → List (String × α)
  | [], _ => []
  | (k, w) :: rest, key =>
      if k = key then eraseA rest key else (k, w) :: eraseA rest key

/-- Keys of a dictionary, in binding order. -/
def keysOf {α : Type} (l : List (String × α)) : List String := l.map Prod.fst

/-- `extend_event(identifier, past_minutes, future_minutes, cameras)`
(lines 81-132).  `now` is `self.current_time()`; `past`/`future` are the
optional request parameters falling back to the configured defaults.  Under
the lock: a known identifier keeps its `start_time`, gets
`end_time = now + future` and its cameras replaced, and its old timer handle
is cancelled; an unknown identifier gets a fresh window
`[now - past, now + future]`.  In both cases a new timer is armed for
`delay = end_time - now` and stored under the identifier. -/
def extend_event (cfg : Config) (s : MState) (identifier : String) (now : Int)
    (past_minutes future_minutes : Option Int) (cameras : Option (List String)) :
    Except LockFail (MState × String) :=
  let new_past_minutes := past_minutes.getD cfg.DEFAULT_PAST_MINUTES
  let new_future_minutes := future_minutes.getD cfg.DEFAULT_FUTURE_MINUTES
  if s.lockHeld then .error .deadlock else
  let s1 : MState := { s with lockHeld := true }
  match lookupA s1.events identifier with
  | some event =>
      -- cancel the previous timer (handle kept in the dict, then overwritten)
      let cancelled1 :=
        match lookupA s1.timers identifier with
        | some h => h.tid :: s1.cancelled
        | none => s1.cancelled
      let event1 : EventWindow :=
        { event with end_time := now + 60 * new_future_minutes, cameras := cameras }
      let message := "Event " ++ identifier ++ " extended"
      let delay := event1.end_time - now
      let timer : TimerHandle := { tid := s1.nextTimer, fireAt := now + delay }
      .ok ({ s1 with
              events := insertA s1.events identifier event1,
              cancelled := cancelled1,
              timers := insertA s1.timers identifier timer,
              nextTimer := s1.nextTimer + 1,
              lockHeld := false }, message)
  | none =>
      let event1 : EventWindow :=
        { start_time := now - 60 * new_past_minutes,
          end_time := now + 60 * new_future_minutes,
          cameras := cameras }
      let message := "New event " ++ identifier ++ " started"
      let delay := event1.end_time - now
      let timer : TimerHandle := { tid := s1.nextTimer, fireAt := now + delay }
      .ok ({ s1 with
              events := insertA s1.events identifier event1,
              timers := insertA s1.timers identifier timer,
              nextTimer := s1.nextTimer + 1,
              lockHeld := false }, message)

/-- `cancel_event(identifier)` (lines 134-145): under the lock, if the
identifier is known cancel and delete its timer handle and delete the event;
an unknown identifier is a logged no-op. -/
def cancel_event (s : MState) (identifier : String) : Except LockFail MState :=
  if s.lockHeld then .error .deadlock else
  let s1 : MState := { s with lockHeld := true }
  match lookupA s1.events identifier with
  | some _ =>
      let s2 :=
        match lookupA s1.timers identifier with
        | some h =>
            { s1 with cancelled := h.tid :: s1.cancelled,
                      timers := eraseA s1.timers identifier }
        | none => s1
      .ok { s2 with events := eraseA s2.events identifier, lockHeld := false }
  | none =>
      .ok { s1 with lockHeld := false }

/-- One per-identifier entry of the `{"events": ...}` response of
`status_event`. -/
inductive EntryR where
  | noEvent
  | info (start_time end_time remaining : Int) (cameras : Option (List String))
deriving Repr, DecidableEq

/-- The `for id, event in self.events.items()` loop of the all-events branch
of `status_event` (lines 174-189), threading the manager state: a live entry
is reported, an expired entry triggers `self.cancel_event(id)` - which
re-acquires the already-held lock and therefore never returns. -/
def statusLoop (now : Int) : List (String × EventWindow) → MState →
    Except LockFail (MState × List (String × EntryR))
  | [], s => .ok (s, [])
  | (id, event) :: rest, s =>
      let remaining := event.end_time - now
      if 0 < remaining then
        match statusLoop now rest s with
        | .error e => .error e
        | .ok (s2, acc) =>
            .ok (s2, (id, .info event.start_time event.end_time remaining event.cameras) :: acc)
      else
        match cancel_event s id with
        | .error e => .error e
        | .ok s2 =>
            match statusLoop now rest s2 with
            | .error e => .error e
            | .ok (s3, acc) => .ok (s3, (id, .noEvent) :: acc)

/-- `status_event(identifier=None)` (lines 147-189).  The whole body runs
inside `with self.event_lock`.  `if identifier:` is Python truthiness, so
`None` and the empty string both select the all-events branch.  A live
single entry is reported; an expired or unknown one reports `no_event`, the
expired case via `self.cancel_event(identifier)` - a nested acquisition of
the non-reentrant lock. -/
def status_event (s : MState) (identifier : Option String) (now : Int) :
    Except LockFail (MState × List (String × EntryR)) :=
  if s.lockHeld then .error .deadlock else
  let s1 : MState := { s with lockHeld := true }
  match identifier with
  | some id =>
      if id = "" then
        match statusLoop now s1.events s1 with
        | .error e => .error e
        | .ok (s2, acc) => .ok ({ s2 with lockHeld := false }, acc)
      else
        match lookupA s1.events id with
        | some event =>
            let remaining := event.end_time - now
            if 0 < remaining then
              .ok ({ s1 with lockHeld := false },
                   [(id, .info event.start_time event.end_time remaining event.cameras)])
            else
              match cancel_event s1 id with
              | .error e => .error e
              | .ok s2 => .ok ({ s2 with lockHeld := false }, [(id, .noEvent)])
        | none => .ok ({ s1 with lockHeld := false }, [(id, .noEvent)])
  | none =>
      match statusLoop now s1.events s1 with
      | .error e => .error e
      | .ok (s2, acc) => .ok ({ s2 with lockHeld := false }, acc)

/-- The scheduler part of `execute_export(identifier)` (lines 287-296): under
the lock atomically pop the event and drop the timer entry; outside the lock
return at once when nothing was popped, otherwise hand the snapshot to the
exporter (recorded in `exports`). -/
def execute_export (s : MState) (identifier : String) : Except LockFail MState :=
  if s.lockHeld then .error .deadlock else
  let s1 : MState := { s with lockHeld := true }
  let event := lookupA s1.events identifier
  let s2 : MState :=
    { s1 with
        events := eraseA s1.events identifier,
        timers :=
          match lookupA s1.timers identifier with
          | some _ => eraseA s1.timers identifier
          | none => s1.timers,
        lockHeld := false }
  match event with
  | none => .ok s2
  | some e => .ok { s2 with exports := s2.exports ++ [(identifier, e)] }

/-- The operations that mutate the shared store: an extend/start request, a
cancel request, a status query, and a timer callback firing for an
identifier (the model lets a callback fire whether or not its handle was
cancelled - cancellation of the underlying primitive is best-effort). -/
inductive Op where
  | extend (identifier : String) (now : Int)
      (past_minutes future_minutes : Option Int) (cameras : Option (List String))
  | cancel (identifier : String)
  | statusQ (identifier : Option String) (now : Int)
  | fire (identifier : String)
deriving Repr, DecidableEq

/-- Apply one operation to the manager state. -/
def stepOp (cfg : Config) (s : MState) : Op → Except LockFail MState
  | .extend id now p f c =>
      match extend_event cfg s id now p f c with
      | .error e => .error e
      | .ok (s2, _) => .ok s2
  | .cancel id => cancel_event s id
  | .statusQ id now =>
      match status_event s id now with
      | .error e => .error e
      | .ok (s2, _) => .ok s2
  | .fire id => execute_export s id

/-- Run a sequence of operations, stopping at the first one that never
returns. -/
def runOps (cfg : Config) : List Op → MState → Except LockFail MState
  | [], s => .ok s
  | op :: ops, s =>
      match stepOp cfg s op with
      | .error e => .error e
      | .ok s2 => runOps cfg ops s2

/-! ### Association-list lemmas -/

theorem lookupA_insertA_self {α : Type} (l : List (String × α)) (k : String) (v : α) :
    lookupA (insertA l k v) k = some v := by
  induction l with
  | nil => simp [insertA, lookupA]
  | cons p rest ih =>
      obtain ⟨k1, v1⟩ := p
      by_cases h : k1 = k
      · simp [insertA, lookupA, h]
      · simp [insertA, lookupA, h, ih]

theorem lookupA_eraseA_self {α : Type} (l : List (String × α)) (k : String) :
    lookupA (eraseA l k) k = none := by
  induction l with
  | nil => simp [eraseA, lookupA]
  | cons p rest ih =>
      obtain ⟨k1, v1⟩ := p
      by_cases h : k1 = k
      · simp [eraseA, h, ih]
      · simp [eraseA, lookupA, h, ih]

theorem lookupA_insertA_other {α : Type} (l : List (String × α)) (k key : String)
    (v : α) (h : key ≠ k) : lookupA (insertA l k v) key = lookupA l key := by
  have h3 : ¬ k = key := fun hh => h hh.symm
  induction l with
  | nil => simp [insertA, lookupA, h3]
  | cons p rest ih =>
      obtain ⟨k1, v1⟩ := p
      by_cases h1 : k1 = k
      · subst h1
        simp [insertA, lookupA, h3]
      · by_cases h2 : k1 = key <;> simp [insertA, lookupA, h1, h2, ih, h]

theorem lookupA_eraseA_other {α : Type} (l : List (String × α)) (k key : String)
    (h : key ≠ k) : lookupA (eraseA l k) key = lookupA l key := by
  have h3 : ¬ k = key := fun hh => h hh.symm
  induction l with
  | nil => simp [eraseA]
  | cons p rest ih =>
      obtain ⟨k1, v1⟩ := p
      by_cases h1 : k1 = k
      · subst h1
        simp [eraseA, lookupA, h3, ih]
      · by_cases h2 : k1 = key <;> simp [eraseA, lookupA, h1, h2, ih, h]

/-! ### Shared helper lemmas about the operations -/

/-- A completed `status_event` call leaves the manager state exactly as it
found it: the expired-entry branch calls `cancel_event` while the lock is
held and therefore never completes, and every other branch only reads. -/
theorem statusLoop_state_eq (now : Int) (l : List (String × EventWindow))
    (s s2 : MState) (acc : List (String × EntryR))
    (hlk : s.lockHeld = true)
    (h : statusLoop now l s = .ok (s2, acc)) : s2 = s := by
  induction l generalizing s2 acc with
  | nil =>
      simp [statusLoop] at h
      exact h.1.symm
  | cons p rest ih =>
      obtain ⟨id, event⟩ := p
      by_cases hrem : 0 < event.end_time - now
      · simp only [statusLoop, hrem, if_pos] at h
        cases hloop : statusLoop now rest s with
        | error e => rw [hloop] at h; exact absurd h (by simp)
        | ok r =>
            obtain ⟨s3, acc3⟩ := r
            rw [hloop] at h
            simp at h
            obtain ⟨h1, _⟩ := h
            exact h1 ▸ ih s3 acc3 hloop
      · simp only [statusLoop, hrem, if_neg, not_false_iff] at h
        rw [show cancel_event s id = .error .deadlock by simp [cancel_event, hlk]] at h
        exact absurd h (by simp)

theorem status_event_state_eq (s : MState) (identifier : Option String) (now : Int)
    (s2 : MState) (res : List (String × EntryR))
    (h : status_event s identifier now = .ok (s2, res)) :
    s2 = { s with lockHeld := false } := by
  by_cases hlk : s.lockHeld
  · simp [status_event, hlk] at h
  · simp only [status_event, hlk, if_neg, not_false_iff] at h
    set s1 : MState := { s with lockHeld := true } with hs1
    have hs1lk : s1.lockHeld = true := rfl
    match identifier with
    | none =>
        simp only at h
        cases hloop : statusLoop now s1.events s1 with
        | error e => rw [hloop] at h; exact absurd h (by simp)
        | ok r =>
            obtain ⟨s3, acc3⟩ := r
            rw [hloop] at h
            simp at h
            have := statusLoop_state_eq now s1.events s1 s3 acc3 hs1lk hloop
            rw [← h.1, this]
    | some id =>
        by_cases hid : id = ""
        · simp only [hid, if_pos] at h
          cases hloop : statusLoop now s1.events s1 with
          | error e => rw [hloop] at h; exact absurd h (by simp)
          | ok r =>
              obtain ⟨s3, acc3⟩ := r
              rw [hloop] at h
              simp at h
              have := statusLoop_state_eq now s1.events s1 s3 acc3 hs1lk hloop
              rw [← h.1, this]
        · simp only [hid, if_neg, not_false_iff] at h
          cases hev : lookupA s1.events id with
          | none =>
              rw [hev] at h
              simp at h
              exact h.1.symm
          | some event =>
              rw [hev] at h
              by_cases hrem : 0 < event.end_time - now
              · simp only [hrem, if_pos] at h
                simp at h
                exact h.1.symm
              · simp only [hrem, if_neg, not_false_iff] at h
                rw [show cancel_event s1 id = .error .deadlock by
                      simp [cancel_event, hs1lk]] at h
                exact absurd h (by simp)

/-- A store holding one event `"evt"` with window `[0, 300]` and its armed
timer - the state after one Extend at time 0 with five-minute windows. -/
def sampleState : MState :=
  { initState with
      events := [("evt", { start_time := 0, end_time := 300, cameras := none })],
      timers := [("evt", { tid := 0, fireAt := 300 })] }

/-- C2: Status on an identifier whose `end_time` is not later than the
current time is claimed to remove the entry and return `no_event`,
idempotently.  The code instead calls `self.cancel_event(identifier)` while
`status_event` already holds the non-reentrant `event_lock`, so the call
re-acquires the held lock and never returns: evaluated at a store holding
`"evt"` with `end_time = 300` at current time 1000, `status_event` deadlocks
instead of returning `{status: "no_event"}`. -/
theorem status_expired_deadlocks :
    status_event sampleState (some "evt") 1000 = .error .deadlock := by rfl

/-- C3: `extend_event` on an unknown identifier creates
`start_time = now - past_minutes` and `end_time = now + future_minutes` and
reports "started"; on a known identifier it keeps `start_time`, sets
`end_time = now + future_minutes`, replaces the cameras, and reports
"extended". -/
theorem extend_event_semantics (cfg : Config) (s : MState) (identifier : String)
    (now : Int) (past_minutes future_minutes : Option Int)
    (cameras : Option (List String)) (s2 : MState) (msg : String)
    (hlk : s.lockHeld = false)
    (h : extend_event cfg s identifier now past_minutes future_minutes cameras
           = .ok (s2, msg)) :
    (∀ ev, lookupA s.events identifier = some ev →
       lookupA s2.events identifier =
         some { start_time := ev.start_time,
                end_time := now + 60 * (future_minutes.getD cfg.DEFAULT_FUTURE_MINUTES),
                cameras := cameras } ∧
       msg = "Event " ++ identifier ++ " extended") ∧
    (lookupA s.events identifier = none →
       lookupA s2.events identifier =
         some { start_time := now - 60 * (past_minutes.getD cfg.DEFAULT_PAST_MINUTES),
                end_time := now + 60 * (future_minutes.getD cfg.DEFAULT_FUTURE_MINUTES),
                cameras := cameras } ∧
       msg = "New event " ++ identifier ++ " started") := by
  simp only [extend_event, hlk, if_neg, Bool.false_eq_true, not_false_iff] at h
  cases hev : lookupA s.events identifier with
  | some ev =>
      rw [show lookupA ({ s with lockHeld := true } : MState).events identifier
            = some ev from hev] at h
      simp at h
      constructor
      · intro ev2 hev2
        cases hev2
        rw [← h.1]
        exact ⟨lookupA_insertA_self _ _ _, h.2.symm⟩
      · intro hnone
        cases hnone
  | none =>
      rw [show lookupA ({ s with lockHeld := true } : MState).events identifier
            = none from hev] at h
      simp at h
      constructor
      · intro ev2 hev2
        cases hev2
      · intro _
        rw [← h.1]
        exact ⟨lookupA_insertA_self _ _ _, h.2.symm⟩

/-- The state produced by a fresh Extend at time 1000 with defaults 5/5. -/
def extendExState : MState :=
  match extend_event ⟨5, 5⟩ initState "evt" 1000 none none (some ["c1"]) with
  | .ok (s, _) => s
  | .error _ => initState

theorem extend_event_semantics_witness :
    lookupA extendExState.events "evt" =
      some { start_time := 700, end_time := 1300, cameras := some ["c1"] } := by
  have h := extend_event_semantics ⟨5, 5⟩ initState "evt" 1000 none none
      (some ["c1"]) extendExState "New event evt started" rfl rfl
  have h2 := (h.2 rfl).1
  norm_num at h2
  exact h2

/-- C4: a completed Status call never arms a timer (no new handle, no fresh
timer id) and never cancels a timer handle; its only permitted effect on the
store is removal of entries whose `end_time` has passed. -/
theorem status_event_frame (s : MState) (identifier : Option String) (now : Int)
    (s2 : MState) (res : List (String × EntryR))
    (h : status_event s identifier now = .ok (s2, res)) :
    s2.timers = s.timers ∧ s2.cancelled = s.cancelled ∧ s2.nextTimer = s.nextTimer ∧
    (∀ k, lookupA s2.events k = lookupA s.events k ∨
       (lookupA s2.events k = none ∧
        ∃ ev, lookupA s.events k = some ev ∧ ev.end_time - now ≤ 0)) := by
  have heq := status_event_state_eq s identifier now s2 res h
  subst heq
  exact ⟨rfl, rfl, rfl, fun _ => Or.inl rfl⟩

/-- The state left by a completed Status on the live sample store. -/
def statusExState : MState :=
  match status_event sampleState (some "evt") 100 with
  | .ok (s, _) => s
  | .error _ => initState

theorem status_event_frame_witness :
    statusExState.timers = sampleState.timers ∧
    statusExState.cancelled = sampleState.cancelled :=
  ⟨(status_event_frame sampleState (some "evt") 100 statusExState
      [("evt", .info 0 300 200 none)] rfl).1,
   (status_event_frame sampleState (some "evt") 100 statusExState
      [("evt", .info 0 300 200 none)] rfl).2.1⟩

/-! ### Key-set bookkeeping for the two dictionaries -/

/-- Effect of dict assignment on the key list. -/
def insertK : List String → String → List String
  | [], key => [key]
  | k :: rest, key => if k = key then k :: rest else k :: insertK rest key

/-- Effect of dict deletion on the key list. -/
def eraseK : List String → String → List String
  | [], _ => []
  | k :: rest, key => if k = key then eraseK rest key else k :: eraseK rest key

theorem keysOf_insertA {α : Type} (l : List (String × α)) (key : String) (v : α) :
    keysOf (insertA l key v) = insertK (keysOf l) key := by
  induction l with
  | nil => simp [insertA, insertK, keysOf]
  | cons p rest ih =>
      obtain ⟨k1, v1⟩ := p
      by_cases h : k1 = key
      · simp [insertA, insertK, keysOf, h]
      · simp only [insertA, insertK, keysOf, List.map_cons, if_neg h]
        simpa [keysOf] using ih

theorem keysOf_eraseA {α : Type} (l : List (String × α)) (key : String) :
    keysOf (eraseA l key) = eraseK (keysOf l) key := by
  induction l with
  | nil => simp [eraseA, eraseK, keysOf]
  | cons p rest ih =>
      obtain ⟨k1, v1⟩ := p
      by_cases h : k1 = key
      · simp only [eraseA, eraseK, keysOf, List.map_cons, if_pos h]
        simpa [keysOf] using ih
      · simp only [eraseA, eraseK, keysOf, List.map_cons, if_neg h]
        simpa [keysOf] using ih

theorem lookupA_none_iff_not_mem {α : Type} (l : List (String × α)) (key : String) :
    lookupA l key = none ↔ key ∉ keysOf l := by
  induction l with
  | nil => simp [lookupA, keysOf]
  | cons p rest ih =>
      obtain ⟨k1, v1⟩ := p
      by_cases h : k1 = key
      · subst h
        simp [lookupA, keysOf]
      · have hkm : keysOf ((k1, v1) :: rest) = k1 :: keysOf rest := rfl
        rw [hkm]
        simp only [lookupA, if_neg h, List.mem_cons]
        rw [ih]
        constructor
        · intro hnm hmem
          rcases hmem with he | hm
          · exact h he.symm
          · exact hnm hm
        · intro hnm hm
          exact hnm (Or.inr hm)

theorem mem_keysOf_of_lookupA {α : Type} (l : List (String × α)) (key : String)
    (v : α) (h : lookupA l key = some v) : key ∈ keysOf l := by
  by_contra hnm
  rw [(lookupA_none_iff_not_mem l key).mpr hnm] at h
  exact absurd h (by simp)

theorem eraseK_not_mem (ks : List String) (key : String) (h : key ∉ ks) :
    eraseK ks key = ks := by
  induction ks with
  | nil => rfl
  | cons k rest ih =>
      simp at h
      have h1 : ¬ k = key := fun hh => h.1 hh.symm
      simp [eraseK, h1, ih h.2]

/-- Every completed operation keeps the key lists of `self.events` and
`self.timers` identical. -/
theorem stepOp_keys (cfg : Config) (op : Op) (s s2 : MState)
    (h : stepOp cfg s op = .ok s2)
    (hk : keysOf s.events = keysOf s.timers) :
    keysOf s2.events = keysOf s2.timers := by
  by_cases hlk : s.lockHeld
  · cases op <;>
      simp [stepOp, extend_event, cancel_event, status_event, execute_export, hlk] at h
  · cases op with
    | extend id now p f c =>
        simp only [stepOp] at h
        simp only [extend_event, hlk, if_neg, Bool.false_eq_true, not_false_iff] at h
        cases hev : lookupA s.events id with
        | some ev =>
            rw [show lookupA ({ s with lockHeld := true } : MState).events id
                  = some ev from hev] at h
            simp at h
            rw [← h]
            simp [keysOf_insertA, hk]
        | none =>
            rw [show lookupA ({ s with lockHeld := true } : MState).events id
                  = none from hev] at h
            simp at h
            rw [← h]
            simp [keysOf_insertA, hk]
    | cancel id =>
        simp only [stepOp, cancel_event, hlk, if_neg, Bool.false_eq_true,
          not_false_iff] at h
        cases hev : lookupA s.events id with
        | some ev =>
            rw [show lookupA ({ s with lockHeld := true } : MState).events id
                  = some ev from hev] at h
            cases htm : lookupA s.timers id with
            | some th =>
                rw [show lookupA ({ s with lockHeld := true } : MState).timers id
                      = some th from htm] at h
                simp at h
                rw [← h]
                simp [keysOf_eraseA, hk]
            | none =>
                have hmem : id ∈ keysOf s.events := mem_keysOf_of_lookupA _ _ _ hev
                exact absurd (hk ▸ hmem) ((lookupA_none_iff_not_mem _ _).mp htm)
        | none =>
            rw [show lookupA ({ s with lockHeld := true } : MState).events id
                  = none from hev] at h
            simp at h
            rw [← h]
            exact hk
    | statusQ id now =>
        simp only [stepOp] at h
        cases hst : status_event s id now with
        | error e => rw [hst] at h; exact absurd h (by simp)
        | ok r =>
            obtain ⟨s3, res⟩ := r
            rw [hst] at h
            simp at h
            have heq := status_event_state_eq s id now s3 res hst
            rw [← h, heq]
            exact hk
    | fire id =>
        simp only [stepOp, execute_export, hlk, if_neg, Bool.false_eq_true,
          not_false_iff] at h
        cases htm : lookupA s.timers id with
        | some th =>
            rw [show lookupA ({ s with lockHeld := true } : MState).timers id
                  = some th from htm] at h
            cases hev : lookupA s.events id with
            | some ev =>
                rw [show lookupA ({ s with lockHeld := true } : MState).events id
                      = some ev from hev] at h
                simp at h
                rw [← h]
                simp [keysOf_eraseA, hk]
            | none =>
                rw [show lookupA ({ s with lockHeld := true } : MState).events id
                      = none from hev] at h
                simp at h
                rw [← h]
                simp [keysOf_eraseA, hk]
        | none =>
            rw [show lookupA ({ s with lockHeld := true } : MState).timers id
                  = none from htm] at h
            have hnm : id ∉ keysOf s.timers := (lookupA_none_iff_not_mem _ _).mp htm
            have hne : eraseK (keysOf s.events) id = keysOf s.events :=
              eraseK_not_mem _ _ (hk ▸ hnm)
            have hne2 : eraseK (keysOf s.timers) id = keysOf s.timers :=
              eraseK_not_mem _ _ hnm
            cases hev : lookupA s.events id with
            | some ev =>
                rw [show lookupA ({ s with lockHeld := true } : MState).events id
                      = some ev from hev] at h
                simp at h
                rw [← h]
                simp [keysOf_eraseA, hne, hne2, hk]
            | none =>
                rw [show lookupA ({ s with lockHeld := true } : MState).events id
                      = none from hev] at h
                simp at h
                rw [← h]
                simp [keysOf_eraseA, hne, hne2, hk]

theorem runOps_keys (cfg : Config) (ops : List Op) (s0 s : MState)
    (h : runOps cfg ops s0 = .ok s)
    (hk : keysOf s0.events = keysOf s0.timers) :
    keysOf s.events = keysOf s.timers := by
  induction ops generalizing s0 with
  | nil =>
      simp [runOps] at h
      exact h ▸ hk
  | cons op ops ih =>
      simp only [runOps] at h
      cases hstep : stepOp cfg s0 op with
      | error e => rw [hstep] at h; exact absurd h (by simp)
      | ok s1 =>
          rw [hstep] at h
          exact ih s1 h (stepOp_keys cfg op s0 s1 hstep hk)

/-- C9: starting from the empty store, after every completed sequence of
Extend / Cancel / Status / timer-callback operations the set of identifiers
in the events map equals the set in the timers map (no event without a
timer handle, no orphaned timer handle). -/
theorem events_timers_keys_eq (cfg : Config) (ops : List Op) (s : MState)
    (h : runOps cfg ops initState = .ok s) :
    keysOf s.events = keysOf s.timers :=
  runOps_keys cfg ops initState s h rfl

/-- A mixed workload touching two identifiers. -/
def keysExOps : List Op :=
  [.extend "a" 0 none none none,
   .extend "b" 10 (some 1) (some 2) (some ["c"]),
   .cancel "a",
   .statusQ (some "b") 20,
   .fire "b",
   .fire "b"]

def keysExState : MState :=
  match runOps ⟨5, 5⟩ keysExOps initState with
  | .ok s => s
  | .error _ => initState

theorem events_timers_keys_eq_witness :
    keysOf keysExState.events = keysOf keysExState.timers :=
  events_timers_keys_eq ⟨5, 5⟩ keysExOps keysExState rfl

/-! ### Debounce: at most one export per window (C1) -/

/-- The arguments of one `extend_event` call on a fixed identifier. -/
structure ExtCall where
  now : Int
  past : Option Int
  future : Option Int
  cams : Option (List String)
deriving Repr, DecidableEq

/-- The `end_time` an Extend call stores: `now + future_minutes`. -/
def endOf (cfg : Config) (c : ExtCall) : Int :=
  c.now + 60 * (c.future.getD cfg.DEFAULT_FUTURE_MINUTES)

/-- The last element of a call sequence. -/
def lastCall : List ExtCall → Option ExtCall
  | [] => none
  | [c] => some c
  | _ :: c :: rest => lastCall (c :: rest)

/-- A burst of Extend calls on one identifier. -/
def extOps (id : String) (calls : List ExtCall) : List Op :=
  calls.map (fun c => Op.extend id c.now c.past c.future c.cams)

/-- A burst of Extend calls followed by silence during which `n` timer
callbacks for the identifier fire (however many stale or live timers get
dispatched). -/
def c1ops (id : String) (calls : List ExtCall) (n : Nat) : List Op :=
  extOps id calls ++ List.replicate n (Op.fire id)

theorem runOps_append (cfg : Config) (l1 l2 : List Op) (s : MState) :
    runOps cfg (l1 ++ l2) s =
      match runOps cfg l1 s with
      | .error e => .error e
      | .ok s1 => runOps cfg l2 s1 := by
  induction l1 generalizing s with
  | nil => simp [runOps]
  | cons op ops ih =>
      simp only [List.cons_append, runOps]
      cases stepOp cfg s op with
      | error e => rfl
      | ok s1 => exact ih s1

theorem extend_stepOp (cfg : Config) (s : MState) (id : String) (c : ExtCall)
    (hlk : s.lockHeld = false) :
    ∃ s2, stepOp cfg s (.extend id c.now c.past c.future c.cams) = .ok s2 ∧
      s2.lockHeld = false ∧ s2.exports = s.exports ∧
      ∃ w, lookupA s2.events id = some w ∧ w.end_time = endOf cfg c := by
  simp only [stepOp, extend_event, hlk, if_neg, Bool.false_eq_true, not_false_iff]
  cases hev : lookupA s.events id with
  | some ev =>
      exact ⟨_, rfl, rfl, rfl, _, lookupA_insertA_self _ _ _, rfl⟩
  | none =>
      exact ⟨_, rfl, rfl, rfl, _, lookupA_insertA_self _ _ _, rfl⟩

theorem runOps_extends (cfg : Config) (id : String) :
    ∀ (calls : List ExtCall) (s : MState), s.lockHeld = false →
      ∃ s1, runOps cfg (extOps id calls) s = .ok s1 ∧ s1.lockHeld = false ∧
        s1.exports = s.exports ∧
        ((calls = [] ∧ s1 = s) ∨
         (∃ c w, lastCall calls = some c ∧ lookupA s1.events id = some w ∧
            w.end_time = endOf cfg c)) := by
  intro calls
  induction calls with
  | nil =>
      intro s hlk
      exact ⟨s, rfl, hlk, rfl, Or.inl ⟨rfl, rfl⟩⟩
  | cons c rest ih =>
      intro s hlk
      obtain ⟨sm, hstep, hlkm, hexpm, w1, hw1, hwend⟩ := extend_stepOp cfg s id c hlk
      obtain ⟨s1, hrun, hlk1, hexp1, hdisj⟩ := ih sm hlkm
      refine ⟨s1, ?_, hlk1, hexp1.trans hexpm, ?_⟩
      · simp only [extOps, List.map_cons, runOps, hstep]
        exact hrun
      · rcases hdisj with ⟨hrest, hs1⟩ | ⟨c2, w2, hlast, hl2, he2⟩
        · subst hrest
          exact Or.inr ⟨c, w1, rfl, hs1 ▸ hw1, hwend⟩
        · refine Or.inr ⟨c2, w2, ?_, hl2, he2⟩
          cases rest with
          | nil => exact absurd hlast (by simp [lastCall])
          | cons c3 rest2 => exact hlast

theorem fire_stepOp (cfg : Config) (s : MState) (id : String)
    (hlk : s.lockHeld = false) :
    ∃ s2, stepOp cfg s (.fire id) = .ok s2 ∧ s2.lockHeld = false ∧
      lookupA s2.events id = none ∧
      s2.exports = s.exports ++
        (match lookupA s.events id with
         | some w => [(id, w)]
         | none => []) := by
  simp only [stepOp, execute_export, hlk, if_neg, Bool.false_eq_true, not_false_iff]
  cases hev : lookupA s.events id with
  | some ev =>
      exact ⟨_, rfl, rfl, lookupA_eraseA_self _ _, rfl⟩
  | none =>
      exact ⟨_, rfl, rfl, lookupA_eraseA_self _ _, (List.append_nil _).symm⟩

theorem runOps_fires (cfg : Config) (id : String) :
    ∀ (n : Nat) (s : MState), s.lockHeld = false →
      ∃ s2, runOps cfg (List.replicate n (Op.fire id)) s = .ok s2 ∧
        s2.lockHeld = false ∧
        ((n = 0 ∧ s2 = s) ∨
         (1 ≤ n ∧ lookupA s2.events id = none ∧
          s2.exports = s.exports ++
            (match lookupA s.events id with
             | some w => [(id, w)]
             | none => []))) := by
  intro n
  induction n with
  | zero =>
      intro s hlk
      exact ⟨s, rfl, hlk, Or.inl ⟨rfl, rfl⟩⟩
  | succ n ih =>
      intro s hlk
      obtain ⟨sm, hstep, hlkm, hlkup, hexpm⟩ := fire_stepOp cfg s id hlk
      obtain ⟨s2, hrun, hlk2, hdisj⟩ := ih sm hlkm
      refine ⟨s2, ?_, hlk2, Or.inr ⟨Nat.one_le_iff_ne_zero.mpr (Nat.succ_ne_zero n), ?_, ?_⟩⟩
      · simp only [List.replicate_succ, runOps, hstep]
        exact hrun
      · rcases hdisj with ⟨_, hs2⟩ | ⟨_, hl2, _⟩
        · exact hs2 ▸ hlkup
        · exact hl2
      · rcases hdisj with ⟨_, hs2⟩ | ⟨_, _, hexp2⟩
        · exact hs2 ▸ hexpm
        · rw [hexp2, hlkup, hexpm]
          simp

/-- C1: from the empty store, any burst of Extend calls on one identifier
followed by silence (during which any number of timer callbacks for that
identifier run, cancelled or not) triggers at most one export; with at
least one Extend and at least one callback, exactly one export runs, and
its snapshot carries the `end_time` stored by the last Extend
(`last.now + future_minutes`), the instant at which the last call armed its
timer.  Each callback pops the entry under the lock and returns without
exporting when it is absent, so no two callbacks reach the export step. -/
theorem extend_debounce_once (cfg : Config) (id : String) (calls : List ExtCall)
    (n : Nat) (s : MState)
    (h : runOps cfg (c1ops id calls n) initState = .ok s) :
    s.exports.length ≤ 1 ∧
    (calls ≠ [] → 1 ≤ n → s.exports.length = 1) ∧
    (∀ p ∈ s.exports, p.1 = id ∧
       ∃ c, lastCall calls = some c ∧ p.2.end_time = endOf cfg c) := by
  obtain ⟨s1, h1, hlk1, hexp1, hdisj1⟩ := runOps_extends cfg id calls initState rfl
  obtain ⟨s2, h2, hlk2, hdisj2⟩ := runOps_fires cfg id n s1 hlk1
  have hs : s = s2 := by
    rw [c1ops, runOps_append, h1] at h
    change runOps cfg (List.replicate n (Op.fire id)) s1 = Except.ok s at h
    rw [h2] at h
    exact ((Except.ok.injEq _ _).mp h).symm
  subst hs
  have hexpinit : s1.exports = [] := hexp1
  rcases hdisj2 with ⟨hn0, hs2⟩ | ⟨hn1, _, hexp2⟩
  · subst hs2
    refine ⟨by simp [hexpinit], fun _ hn => absurd (hn0 ▸ hn) (by simp), ?_⟩
    intro p hp
    rw [hexpinit] at hp
    exact absurd hp (by simp)
  · rcases hdisj1 with ⟨hcalls, hs1⟩ | ⟨c, w, hlast, hlkup, hend⟩
    · subst hcalls
      subst hs1
      rw [show lookupA initState.events id = none from rfl] at hexp2
      rw [hexpinit] at hexp2
      refine ⟨by simp [hexp2], fun hne _ => absurd rfl hne, ?_⟩
      intro p hp
      rw [hexp2] at hp
      exact absurd hp (by simp)
    · rw [hlkup, hexpinit] at hexp2
      simp only [List.nil_append] at hexp2
      refine ⟨by simp [hexp2], fun _ _ => by simp [hexp2], ?_⟩
      intro p hp
      rw [hexp2] at hp
      simp at hp
      subst hp
      exact ⟨rfl, c, hlast, hend⟩

/-- Two rapid-fire Extend calls on `"evt"`, then three timer callbacks. -/
def c1Calls : List ExtCall :=
  [⟨0, none, none, none⟩, ⟨100, none, some 2, some ["cam"]⟩]

def c1ExState : MState :=
  match runOps ⟨5, 5⟩ (c1ops "evt" c1Calls 3) initState with
  | .ok s => s
  | .error _ => initState

theorem extend_debounce_once_witness : c1ExState.exports.length = 1 :=
  (extend_debounce_once ⟨5, 5⟩ "evt" c1Calls 3 c1ExState rfl).2.1
    (by decide) (by decide)

/-! ### Export retry loop (lines 343-384) -/

/-- The exception classes that matter to `execute_export`'s try/except:
`subprocess.CalledProcessError` is the only class the `except` clause
catches; `Popen` signals a process-launch failure by raising an `OSError`
subclass (e.g. `FileNotFoundError` when the archiver binary is absent) and
never raises `CalledProcessError` (that class is raised only by
`subprocess.run(check=True)`/`check_call`).  `valueError` and `typeError`
are raised by `datetime.strptime` and by comparing `None` during `sort`. -/
inductive PyExc where
  | calledProcessError
  | osError
  | valueError
  | typeError
deriving Repr, DecidableEq

/-- What one attempt of the archive command does: run to completion with an
exit status, or raise while being launched/driven. -/
inductive AttemptResult where
  | exits (code : Int)
  | raises (e : PyExc)
deriving Repr, DecidableEq

/-- Observable outcome of the `for attempt in range(MAX_RETRIES)` loop:
`success` - the loop ended via `break` (exit status 0);
`attemptsUsed` - number of attempts started;
`sleptAfter` - the attempt indices after which `time.sleep(RETRY_DELAY)` ran;
`exhausted` - the `for ... else` clause ran ("Max retries reached"). -/
structure RetryOut where
  success : Bool
  attemptsUsed : Nat
  sleptAfter : List Nat
  exhausted : Bool
deriving Repr, DecidableEq

/-- The retry loop, one recursive step per iteration of
`for attempt in range(MAX_RETRIES)`.  `fuel` counts the iterations the range
still holds (`maxRetries - attempt`), `attempt` is the loop variable,
`slept` accumulates the sleeps performed so far.  An attempt that exits 0
breaks out at once (skipping the sleep and the else clause); a non-zero
exit or a caught `CalledProcessError` logs, sleeps unless this was the last
attempt (`attempt < MAX_RETRIES - 1`), and retries; any other exception
propagates out of the loop. -/
def retryFrom (maxRetries : Nat) (run : Nat → AttemptResult) :
    Nat → Nat → List Nat → Except PyExc RetryOut
  | 0, attempt, slept => .ok ⟨false, attempt, slept, true⟩
  | fuel + 1, attempt, slept =>
      match run attempt with
      | .exits code =>
          if code = 0 then .ok ⟨true, attempt + 1, slept, false⟩
          else if attempt < maxRetries - 1 then
            retryFrom maxRetries run fuel (attempt + 1) (slept ++ [attempt])
          else retryFrom maxRetries run fuel (attempt + 1) slept
      | .raises .calledProcessError =>
          if attempt < maxRetries - 1 then
            retryFrom maxRetries run fuel (attempt + 1) (slept ++ [attempt])
          else retryFrom maxRetries run fuel (attempt + 1) slept
      | .raises e => .error e

/-- The whole `for`/`else` statement of `execute_export`. -/
def retryLoop (maxRetries : Nat) (run : Nat → AttemptResult) :
    Except PyExc RetryOut :=
  retryFrom maxRetries run maxRetries 0 []

/-- `execute_export` from the retry loop on: after the loop (however it
ended) control falls through to `combine_videos(target_folder)`; the
returned Bool records that the combination step was reached.  An exception
the `except` clause does not catch aborts the function before that step. -/
def exportRun (maxRetries : Nat) (run : Nat → AttemptResult) :
    Except PyExc (RetryOut × Bool) :=
  match retryLoop maxRetries run with
  | .error e => .error e
  | .ok r => .ok (r, true)

/-- C5: a process-launch failure is claimed to be a retried failed attempt,
with no exception escaping `execute_export` and combination always reached.
The `except subprocess.CalledProcessError` clause can never catch a launch
failure - `Popen` raises `OSError` (`FileNotFoundError`), and
`CalledProcessError` is raised only by `subprocess.run(check=True)` variants
the code does not use - so the `OSError` propagates out of `execute_export`
on the first attempt: no retry, no combination.  (Non-zero exit statuses,
by contrast, are retried with a sleep after every attempt but the last, no
exception escapes, and combination is reached, as the second conjunct
shows.) -/
theorem export_launch_failure_propagates :
    exportRun 3 (fun _ => .raises .osError) = .error .osError ∧
    exportRun 3 (fun _ => .exits 1) = .ok (⟨false, 3, [0, 1], true⟩, true) :=
  ⟨rfl, rfl⟩

theorem retryFrom_spec (maxRetries : Nat) (run : Nat → AttemptResult) :
    ∀ (fuel attempt : Nat) (slept : List Nat) (r : RetryOut),
      attempt + fuel = maxRetries →
      (∀ x ∈ slept, x < attempt) →
      retryFrom maxRetries run fuel attempt slept = .ok r →
      ((r.success = true →
          ∃ k, r.attemptsUsed = k + 1 ∧ attempt ≤ k ∧ k < maxRetries ∧
            run k = .exits 0 ∧
            (∀ j, attempt ≤ j → j < k → run j ≠ .exits 0) ∧
            (∀ x ∈ r.sleptAfter, x < k)) ∧
       (r.success = false →
          r.attemptsUsed = maxRetries ∧ r.exhausted = true ∧
          ∀ j, attempt ≤ j → j < maxRetries → run j ≠ .exits 0)) := by
  intro fuel
  induction fuel with
  | zero =>
      intro attempt slept r hmf hsl h
      simp only [retryFrom] at h
      rw [← (Except.ok.injEq _ _).mp h]
      refine ⟨fun hs => absurd hs (by simp), fun _ => ⟨?_, rfl, ?_⟩⟩
      · simpa using hmf
      · intro j hj1 hj2
        omega
  | succ fuel ih =>
      intro attempt slept r hmf hsl h
      have hlt : attempt < maxRetries := by omega
      simp only [retryFrom] at h
      cases hrun : run attempt with
      | exits code =>
          rw [hrun] at h
          simp only [] at h
          by_cases hc : code = 0
          · subst hc
            simp only [if_pos rfl] at h
            rw [← (Except.ok.injEq _ _).mp h]
            refine ⟨fun _ => ⟨attempt, rfl, le_refl _, hlt, hrun, ?_, hsl⟩,
                    fun hf => absurd hf (by simp)⟩
            intro j hj1 hj2
            omega
          · rw [if_neg hc] at h
            have hnot0 : run attempt ≠ .exits 0 := by
              rw [hrun]
              intro hcon
              exact hc (by injection hcon)
            by_cases hsleep : attempt < maxRetries - 1
            · rw [if_pos hsleep] at h
              have hsl2 : ∀ x ∈ slept ++ [attempt], x < attempt + 1 := by
                intro x hx
                rcases List.mem_append.mp hx with hx1 | hx2
                · exact Nat.lt_succ_of_lt (hsl x hx1)
                · simp at hx2
                  omega
              obtain ⟨hsuc, hfail⟩ := ih (attempt + 1) (slept ++ [attempt]) r
                (by omega) hsl2 h
              refine ⟨fun hs => ?_, fun hf => ?_⟩
              · obtain ⟨k, hk1, hk2, hk3, hk4, hk5, hk6⟩ := hsuc hs
                refine ⟨k, hk1, by omega, hk3, hk4, ?_, hk6⟩
                intro j hj1 hj2
                by_cases hje : j = attempt
                · exact hje ▸ hnot0
                · exact hk5 j (by omega) hj2
              · obtain ⟨hf1, hf2, hf3⟩ := hfail hf
                refine ⟨hf1, hf2, ?_⟩
                intro j hj1 hj2
                by_cases hje : j = attempt
                · exact hje ▸ hnot0
                · exact hf3 j (by omega) hj2
            · rw [if_neg hsleep] at h
              obtain ⟨hsuc, hfail⟩ := ih (attempt + 1) slept r (by omega)
                (fun x hx => Nat.lt_succ_of_lt (hsl x hx)) h
              refine ⟨fun hs => ?_, fun hf => ?_⟩
              · obtain ⟨k, hk1, hk2, hk3, hk4, hk5, hk6⟩ := hsuc hs
                refine ⟨k, hk1, by omega, hk3, hk4, ?_, hk6⟩
                intro j hj1 hj2
                by_cases hje : j = attempt
                · exact hje ▸ hnot0
                · exact hk5 j (by omega) hj2
              · obtain ⟨hf1, hf2, hf3⟩ := hfail hf
                refine ⟨hf1, hf2, ?_⟩
                intro j hj1 hj2
                by_cases hje : j = attempt
                · exact hje ▸ hnot0
                · exact hf3 j (by omega) hj2
      | raises e =>
          rw [hrun] at h
          have hnot0 : run attempt ≠ .exits 0 := by
            rw [hrun]
            intro hcon
            cases hcon
          cases e with
          | calledProcessError =>
              simp only [] at h
              by_cases hsleep : attempt < maxRetries - 1
              · rw [if_pos hsleep] at h
                have hsl2 : ∀ x ∈ slept ++ [attempt], x < attempt + 1 := by
                  intro x hx
                  rcases List.mem_append.mp hx with hx1 | hx2
                  · exact Nat.lt_succ_of_lt (hsl x hx1)
                  · simp at hx2
                    omega
                obtain ⟨hsuc, hfail⟩ := ih (attempt + 1) (slept ++ [attempt]) r
                  (by omega) hsl2 h
                refine ⟨fun hs => ?_, fun hf => ?_⟩
                · obtain ⟨k, hk1, hk2, hk3, hk4, hk5, hk6⟩ := hsuc hs
                  refine ⟨k, hk1, by omega, hk3, hk4, ?_, hk6⟩
                  intro j hj1 hj2
                  by_cases hje : j = attempt
                  · exact hje ▸ hnot0
                  · exact hk5 j (by omega) hj2
                · obtain ⟨hf1, hf2, hf3⟩ := hfail hf
                  refine ⟨hf1, hf2, ?_⟩
                  intro j hj1 hj2
                  by_cases hje : j = attempt
                  · exact hje ▸ hnot0
                  · exact hf3 j (by omega) hj2
              · rw [if_neg hsleep] at h
                obtain ⟨hsuc, hfail⟩ := ih (attempt + 1) slept r (by omega)
                  (fun x hx => Nat.lt_succ_of_lt (hsl x hx)) h
                refine ⟨fun hs => ?_, fun hf => ?_⟩
                · obtain ⟨k, hk1, hk2, hk3, hk4, hk5, hk6⟩ := hsuc hs
                  refine ⟨k, hk1, by omega, hk3, hk4, ?_, hk6⟩
                  intro j hj1 hj2
                  by_cases hje : j = attempt
                  · exact hje ▸ hnot0
                  · exact hk5 j (by omega) hj2
                · obtain ⟨hf1, hf2, hf3⟩ := hfail hf
                  refine ⟨hf1, hf2, ?_⟩
                  intro j hj1 hj2
                  by_cases hje : j = attempt
                  · exact hje ▸ hnot0
                  · exact hf3 j (by omega) hj2
          | osError => exact absurd h (by simp)
          | valueError => exact absurd h (by simp)
          | typeError => exact absurd h (by simp)

/-- C6: in the retry loop an attempt succeeds exactly when the process
exits with status 0, the loop stops immediately at the first such attempt
(all earlier attempts were failures), and no `retry_delay` sleep follows
the successful attempt (every recorded sleep precedes it). -/
theorem retry_success_characterization (maxRetries : Nat)
    (run : Nat → AttemptResult) (r : RetryOut)
    (h : retryLoop maxRetries run = .ok r) :
    (r.success = true ↔ ∃ k, k < r.attemptsUsed ∧ run k = .exits 0) ∧
    (r.success = true →
       ∃ k, r.attemptsUsed = k + 1 ∧ run k = .exits 0 ∧
         (∀ j, j < k → run j ≠ .exits 0) ∧
         (∀ x ∈ r.sleptAfter, x < k)) := by
  obtain ⟨hsuc, hfail⟩ := retryFrom_spec maxRetries run maxRetries 0 [] r
    (by omega) (by simp) h
  constructor
  · constructor
    · intro hs
      obtain ⟨k, hk1, _, _, hk4, _, _⟩ := hsuc hs
      exact ⟨k, by omega, hk4⟩
    · intro ⟨k, hk1, hk2⟩
      cases hsb : r.success with
      | true => rfl
      | false =>
          obtain ⟨hf1, _, hf3⟩ := hfail hsb
          exact absurd hk2 (hf3 k (Nat.zero_le k) (by omega))
  · intro hs
    obtain ⟨k, hk1, _, _, hk4, hk5, hk6⟩ := hsuc hs
    exact ⟨k, hk1, hk4, fun j hj => hk5 j (Nat.zero_le j) hj, hk6⟩

/-- Fails twice, succeeds on the third of three configured attempts. -/
def thirdTry : Nat → AttemptResult :=
  fun attempt => if attempt < 2 then .exits 1 else .exits 0

def thirdTryOut : RetryOut := ⟨true, 3, [0, 1], false⟩

theorem retry_success_characterization_witness :
    retryLoop 3 thirdTry = .ok thirdTryOut ∧
    thirdTryOut.success = true ∧ thirdTryOut.attemptsUsed = 3 ∧
    thirdTryOut.sleptAfter = [0, 1] ∧
    (∃ k, thirdTryOut.attemptsUsed = k + 1 ∧ thirdTry k = .exits 0 ∧
       (∀ j, j < k → thirdTry j ≠ .exits 0) ∧
       (∀ x ∈ thirdTryOut.sleptAfter, x < k)) :=
  ⟨rfl, rfl, rfl, rfl,
   (retry_success_characterization 3 thirdTry thirdTryOut rfl).2 rfl⟩

/-! ### Video combiner (`combine_videos`, lines 191-285)

Filenames are handled as `String`/`List Char`; paths inside the processed
folder are represented by the bare filenames (`os.path.join(folder, f)` and
`os.path.basename` cancel out for every use below).  The two regular
expressions are embedded as explicit parsers with Python's semantics:
`re.match` anchors at the start only, `re.search` scans for the leftmost
match, and the lazy group `(.+?)` takes the shortest non-empty prefix (of
non-newline characters) that lets the fixed remainder match. -/

/-- Match a literal character sequence as a prefix, returning the rest. -/
def dropLit : List Char → List Char → Option (List Char)
  | [], cs => some cs
  | _ :: _, [] => none
  | l :: ls, c :: cs => if c = l then dropLit ls cs else none

/-- Match exactly `n` digits (`\d{n}`), returning them and the rest. -/
def takeDigits : Nat → List Char → Option (List Char × List Char)
  | 0, cs => some ([], cs)
  | _ + 1, [] => none
  | n + 1, c :: cs =>
      if c.isDigit then
        match takeDigits n cs with
        | some (ds, rest) => some (c :: ds, rest)
        | none => none
      else none

/-- The fixed remainder of the `get_camera_name` pattern after the lazy
group: `" - \d{4}-\d{2}-\d{2} - \d{2}\.\d{2}\.\d{2}-\d{4}\.mp4"` followed by
anything (`re.match` does not anchor the end). -/
def tailPatO (cs : List Char) : Option Unit :=
  match dropLit [' ', '-', ' '] cs with
  | none => none
  | some cs =>
  match takeDigits 4 cs with
  | none => none
  | some (_, cs) =>
  match dropLit ['-'] cs with
  | none => none
  | some cs =>
  match takeDigits 2 cs with
  | none => none
  | some (_, cs) =>
  match dropLit ['-'] cs with
  | none => none
  | some cs =>
  match takeDigits 2 cs with
  | none => none
  | some (_, cs) =>
  match dropLit [' ', '-', ' '] cs with
  | none => none
  | some cs =>
  match takeDigits 2 cs with
  | none => none
  | some (_, cs) =>
  match dropLit ['.'] cs with
  | none => none
  | some cs =>
  match takeDigits 2 cs with
  | none => none
  | some (_, cs) =>
  match dropLit ['.'] cs with
  | none => none
  | some cs =>
  match takeDigits 2 cs with
  | none => none
  | some (_, cs) =>
  match dropLit ['-'] cs with
  | none => none
  | some cs =>
  match takeDigits 4 cs with
  | none => none
  | some (_, cs) =>
  match dropLit ['.', 'm', 'p', '4'] cs with
  | none => none
  | some _ => some ()

def tailPat (cs : List Char) : Bool := (tailPatO cs).isSome

/-- The lazy group `(.+?)`: consume characters one at a time (shortest
first, newline excluded, at least one) until the fixed remainder matches;
returns the group. -/
def camSplit (acc : List Char) : List Char → Option (List Char)
  | [] => none
  | c :: rest =>
      if c = '\n' then none
      else if tailPat rest then some (c :: acc).reverse
      else camSplit (c :: acc) rest

/-- `get_camera_name(filename)` (lines 204-211): `re.match` of
`(.+?) - \d{4}-\d{2}-\d{2} - \d{2}\.\d{2}\.\d{2}-\d{4}\.mp4`, returning
group 1 (the camera name) or `None`. -/
def get_camera_name (s : String) : Option String :=
  match camSplit [] s.data with
  | some cs => some (String.mk cs)
  | none => none

/-- The digit groups captured by the timestamp pattern
`(\d{4}-\d{2}-\d{2}) - (\d{2}\.\d{2}\.\d{2})`. -/
structure TsRaw where
  y : List Char
  mo : List Char
  d : List Char
  h : List Char
  mi : List Char
  se : List Char
deriving Repr, DecidableEq

/-- Try the timestamp pattern at the start of the character list. -/
def tsAt (cs : List Char) : Option TsRaw :=
  match takeDigits 4 cs with
  | none => none
  | some (y, cs) =>
  match dropLit ['-'] cs with
  | none => none
  | some cs =>
  match takeDigits 2 cs with
  | none => none
  | some (mo, cs) =>
  match dropLit ['-'] cs with
  | none => none
  | some cs =>
  match takeDigits 2 cs with
  | none => none
  | some (d, cs) =>
  match dropLit [' ', '-', ' '] cs with
  | none => none
  | some cs =>
  match takeDigits 2 cs with
  | none => none
  | some (h, cs) =>
  match dropLit ['.'] cs with
  | none => none
  | some cs =>
  match takeDigits 2 cs with
  | none => none
  | some (mi, cs) =>
  match dropLit ['.'] cs with
  | none => none
  | some cs =>
  match takeDigits 2 cs with
  | none => none
  | some (se, _) => some ⟨y, mo, d, h, mi, se⟩

/-- `re.search`: leftmost position where the pattern matches. -/
def tsSearch : List Char → Option TsRaw
  | [] => none
  | c :: rest =>
      match tsAt (c :: rest) with
      | some r => some r
      | none => tsSearch rest

/-- Decimal value of a digit string. -/
def digitsToNat (ds : List Char) : Nat :=
  ds.foldl (fun acc c => 10 * acc + (c.toNat - 48)) 0

/-- A parsed `datetime` (naive, as `datetime.strptime` returns). -/
structure DT where
  year : Nat
  month : Nat
  day : Nat
  hour : Nat
  minute : Nat
  second : Nat
deriving Repr, DecidableEq

def isLeap (y : Nat) : Bool := (y % 4 == 0 && y % 100 != 0) || y % 400 == 0

def daysInMonth (y m : Nat) : Nat :=
  if m = 2 then (if isLeap y then 29 else 28)
  else if m = 4 ∨ m = 6 ∨ m = 9 ∨ m = 11 then 30
  else 31

/-- `datetime.strptime(..., "%Y-%m-%d %H.%M.%S")` applied to digit strings
that already have the right shape: the library validates the ranges
(`MINYEAR = 1`, month 1-12, a calendar-valid day, hour 0-23, minute 0-59,
second 0-59 - `datetime` rejects leap seconds) and raises `ValueError` on
violation, modelled as `none`. -/
def mkDatetime (y mo d h mi se : Nat) : Option DT :=
  if 1 ≤ y ∧ y ≤ 9999 ∧ 1 ≤ mo ∧ mo ≤ 12 ∧ 1 ≤ d ∧ d ≤ daysInMonth y mo ∧
     h ≤ 23 ∧ mi ≤ 59 ∧ se ≤ 59
  then some ⟨y, mo, d, h, mi, se⟩ else none

/-- `extract_timestamp(filename)` (lines 213-222): `re.search` the pattern;
`None` when it does not occur, otherwise `strptime` the captured date and
time - which raises `ValueError` (it is not caught anywhere in
`combine_videos`) when the digits are out of range. -/
def extract_timestamp (s : String) : Except PyExc (Option DT) :=
  match tsSearch s.data with
  | none => .ok none
  | some r =>
      match mkDatetime (digitsToNat r.y) (digitsToNat r.mo) (digitsToNat r.d)
          (digitsToNat r.h) (digitsToNat r.mi) (digitsToNat r.se) with
      | some dt => .ok (some dt)
      | none => .error .valueError

/-- Chronological order of naive datetimes as one number (every component
below the year is bounded by 100, so lexicographic = numeric). -/
def dtKey (t : DT) : Nat :=
  ((((t.year * 100 + t.month) * 100 + t.day) * 100 + t.hour) * 100 + t.minute)
    * 100 + t.second

/-- Stable insertion keeping existing equal keys in front, as
`list.sort(key=...)` (Timsort) is stable. -/
def insertSorted (x : String × DT) : List (String × DT) → List (String × DT)
  | [] => [x]
  | y :: ys => if dtKey x.2 ≤ dtKey y.2 then x :: y :: ys else y :: insertSorted x ys

def sortPairs : List (String × DT) → List (String × DT)
  | [] => []
  | x :: xs => insertSorted x (sortPairs xs)

/-- `str.replace(old, new)`: scan left to right, replacing non-overlapping
occurrences.  `fuel` bounds the scan by the string length (the patterns
used are non-empty, so every step consumes at least one character). -/
def replaceGo (pat rep : List Char) : Nat → List Char → List Char
  | 0, cs => cs
  | _ + 1, [] => []
  | fuel + 1, c :: cs =>
      match dropLit pat (c :: cs) with
      | some rest => rep ++ replaceGo pat rep fuel rest
      | none => c :: replaceGo pat rep fuel cs

def pyReplace (s pat rep : String) : String :=
  String.mk (replaceGo pat.data rep.data s.data.length s.data)

/-- `f.endswith(".mp4")`: the reversed suffix is a prefix of the reversed
string. -/
def pyEndsWith (s suffix : String) : Bool :=
  (dropLit suffix.data.reverse s.data.reverse).isSome

/-- Append a file to its camera's group, creating the group at the end on
first sight (Python dicts iterate in insertion order). -/
def groupAdd (g : List (String × List String)) (cam file : String) :
    List (String × List String) :=
  match g with
  | [] => [(cam, [file])]
  | (c, fs) :: rest =>
      if c = cam then (c, fs ++ [file]) :: rest else (c, fs) :: groupAdd rest cam file

/-- The grouping loop of `combine_videos` (lines 224-234): files whose name
matches the camera pattern are grouped under the camera name; the rest are
silently skipped. -/
def groupByCamera (files : List String) : List (String × List String) :=
  files.foldl
    (fun g f =>
      match get_camera_name f with
      | some cam => groupAdd g cam f
      | none => g) []

/-- Observable outcome of `combine_videos` on one folder:
`outputs` - the combined files created; `filelists` - for each output, the
(sorted) file list written to `filelist.txt` and concatenated;
`concatCalls` - each ffmpeg invocation with its exit status (which line 268
`subprocess.run(concat_command)` ignores); `deleted` - originals removed;
`skipped` - camera groups with a single file, left untouched. -/
structure CombineResult where
  outputs : List String
  filelists : List (String × List String)
  concatCalls : List (String × Int)
  deleted : List String
  skipped : List String
deriving Repr, DecidableEq

def emptyCombine : CombineResult :=
  { outputs := [], filelists := [], concatCalls := [], deleted := [], skipped := [] }

/-- The sort keys, computed left to right as Python's `sort(key=...)` does;
the first `ValueError` from `extract_timestamp` aborts everything. -/
def computeKeys : List String → Except PyExc (List (String × Option DT))
  | [] => .ok []
  | f :: fs =>
      match extract_timestamp f with
      | .error e => .error e
      | .ok k =>
          match computeKeys fs with
          | .error e => .error e
          | .ok rest => .ok ((f, k) :: rest)

def dummyDT : DT := ⟨1, 1, 1, 0, 0, 0⟩

/-- The body of the per-group loop (lines 236-285).  A group with more than
one file: sort by the extracted timestamp (comparing a `None` key raises
`TypeError`), name the output after the first (earliest) file with
`" - combined"` spliced in by `str.replace`, run ffmpeg (exit status
ignored), and delete every original iff `keep_split_files` is false -
regardless of the concatenation outcome.  A single-file group is only
logged as skipped. -/
def processGroup (keepSplit : Bool) (concatExit : String → Int) (cam : String)
    (files : List String) (acc : CombineResult) : Except PyExc CombineResult :=
  if 1 < files.length then
    match computeKeys files with
    | .error e => .error e
    | .ok pairs =>
        if pairs.any (fun p => p.2.isNone) then .error .typeError
        else
          let sorted := sortPairs (pairs.map (fun p => (p.1, p.2.getD dummyDT)))
          let sortedFiles := sorted.map Prod.fst
          let first := sortedFiles.headD ""
          let output := pyReplace first ".mp4" " - combined.mp4"
          .ok { acc with
                outputs := acc.outputs ++ [output],
                filelists := acc.filelists ++ [(output, sortedFiles)],
                concatCalls := acc.concatCalls ++ [(output, concatExit output)],
                deleted := acc.deleted ++ (if keepSplit then [] else sortedFiles) }
  else .ok { acc with skipped := acc.skipped ++ [cam] }

def combineGroups (keepSplit : Bool) (concatExit : String → Int) :
    List (String × List String) → CombineResult → Except PyExc CombineResult
  | [], acc => .ok acc
  | (cam, fs) :: rest, acc =>
      match processGroup keepSplit concatExit cam fs acc with
      | .error e => .error e
      | .ok acc2 => combineGroups keepSplit concatExit rest acc2

/-- `combine_videos(folder_path)` (lines 191-285) over the folder's file
listing.  `concatExit` supplies the exit status of each ffmpeg run (the
code never looks at it). -/
def combine_videos (files : List String) (keepSplit : Bool)
    (concatExit : String → Int) : Except PyExc CombineResult :=
  let video_files := files.filter (fun f => pyEndsWith f ".mp4")
  if video_files.isEmpty then .ok emptyCombine
  else combineGroups keepSplit concatExit (groupByCamera video_files) emptyCombine

/-! ### Deletion policy of the combiner (C7) -/

def flattenL {α : Type} : List (List α) → List α
  | [] => []
  | x :: xs => x ++ flattenL xs

theorem flattenL_concat {α : Type} (xs : List (List α)) (ys : List α) :
    flattenL (xs ++ [ys]) = flattenL xs ++ ys := by
  induction xs with
  | nil => simp [flattenL]
  | cons x rest ih => simp [flattenL, ih]

/-- The deletion bookkeeping invariant: everything deleted so far is exactly
the originals of the groups concatenated so far - when `keep_split_files`
is false - and nothing otherwise. -/
def delInv (keepSplit : Bool) (acc : CombineResult) : Prop :=
  acc.deleted = if keepSplit then [] else flattenL (acc.filelists.map Prod.snd)

theorem processGroup_delInv (keepSplit : Bool) (concatExit : String → Int)
    (cam : String) (fs : List String) (acc acc2 : CombineResult)
    (h : processGroup keepSplit concatExit cam fs acc = .ok acc2)
    (hinv : delInv keepSplit acc) : delInv keepSplit acc2 := by
  unfold processGroup at h
  by_cases hlen : 1 < fs.length
  · rw [if_pos hlen] at h
    cases hck : computeKeys fs with
    | error e => rw [hck] at h; exact absurd h (by simp)
    | ok pairs =>
        rw [hck] at h
        simp only [] at h
        by_cases hany : pairs.any (fun p => p.2.isNone) = true
        · rw [if_pos hany] at h
          exact absurd h (by simp)
        · rw [if_neg hany] at h
          obtain rfl := (Except.ok.injEq _ _).mp h
          unfold delInv at hinv ⊢
          simp only [List.map_append, List.map_cons, List.map_nil]
          rw [flattenL_concat, hinv]
          cases keepSplit with
          | true => simp
          | false => simp
  · rw [if_neg hlen] at h
    rw [← (Except.ok.injEq _ _).mp h]
    exact hinv

theorem combineGroups_delInv (keepSplit : Bool) (concatExit : String → Int)
    (groups : List (String × List String)) :
    ∀ (acc r : CombineResult),
      combineGroups keepSplit concatExit groups acc = .ok r →
      delInv keepSplit acc → delInv keepSplit r := by
  induction groups with
  | nil =>
      intro acc r h hinv
      simp only [combineGroups] at h
      exact ((Except.ok.injEq _ _).mp h) ▸ hinv
  | cons g rest ih =>
      intro acc r h hinv
      obtain ⟨cam, fs⟩ := g
      simp only [combineGroups] at h
      cases hpg : processGroup keepSplit concatExit cam fs acc with
      | error e => rw [hpg] at h; exact absurd h (by simp)
      | ok acc2 =>
          rw [hpg] at h
          exact ih acc2 r h
            (processGroup_delInv keepSplit concatExit cam fs acc acc2 hpg hinv)

/-- C7 (amended): for every folder and every behaviour of the concatenation
tool, a completed `combine_videos` run deletes exactly the originals of the
concatenated (multi-file) groups when `keep_split_files` is false -
regardless of the tool's exit status, which line 268 never inspects - and
deletes nothing when it is true. -/
theorem combine_delete_policy (files : List String) (keepSplit : Bool)
    (concatExit : String → Int) (r : CombineResult)
    (h : combine_videos files keepSplit concatExit = .ok r) :
    r.deleted = if keepSplit then [] else flattenL (r.filelists.map Prod.snd) := by
  unfold combine_videos at h
  by_cases hemp : (files.filter (fun f => pyEndsWith f ".mp4")).isEmpty = true
  · rw [if_pos hemp] at h
    rw [← (Except.ok.injEq _ _).mp h]
    cases keepSplit <;> rfl
  · rw [if_neg hemp] at h
    refine combineGroups_delInv keepSplit concatExit _ emptyCombine r h ?_
    cases keepSplit <;> rfl

/-- Two clips of one camera, to be combined. -/
def cex7files : List String :=
  ["A - 2024-01-01 - 10.00.00-0001.mp4", "A - 2024-01-01 - 10.05.00-0002.mp4"]

def cex7out : CombineResult :=
  { outputs := ["A - 2024-01-01 - 10.00.00-0001 - combined.mp4"],
    filelists := [("A - 2024-01-01 - 10.00.00-0001 - combined.mp4", cex7files)],
    concatCalls := [("A - 2024-01-01 - 10.00.00-0001 - combined.mp4", 1)],
    deleted := cex7files,
    skipped := [] }

/-- C7 as stated is false on the code: with `keep_split_files = false` and a
concatenation tool that exits with status 1 (failure) on the one group of
`cex7files`, `combine_videos` still deletes both originals - the exit
status is never inspected, so failure does not preserve them. -/
theorem combine_failure_still_deletes :
    combine_videos cex7files false (fun _ => 1) = .ok cex7out ∧
    cex7out.concatCalls = [("A - 2024-01-01 - 10.00.00-0001 - combined.mp4", 1)] ∧
    cex7out.deleted = cex7files ∧ cex7files ≠ [] :=
  ⟨rfl, rfl, rfl, by simp [cex7files]⟩

def c7keepOut : CombineResult :=
  match combine_videos cex7files true (fun _ => 1) with
  | .ok r => r
  | .error _ => emptyCombine

theorem combine_delete_policy_witness :
    c7keepOut.deleted =
      if true then [] else flattenL (c7keepOut.filelists.map Prod.snd) :=
  combine_delete_policy cex7files true (fun _ => 1) c7keepOut rfl

/-! ### Grouping and ordering of the combiner (C8) -/

/-- The file list a camera's group holds (empty list when absent). -/
def lookupGroup : List (String × List String) → String → List String
  | [], _ => []
  | (c, fs) :: rest, cam => if c = cam then fs else lookupGroup rest cam

theorem lookupGroup_groupAdd_same (g : List (String × List String))
    (cam f : String) :
    lookupGroup (groupAdd g cam f) cam = lookupGroup g cam ++ [f] := by
  induction g with
  | nil => simp [groupAdd, lookupGroup]
  | cons p rest ih =>
      obtain ⟨c, fs⟩ := p
      by_cases h : c = cam
      · subst h
        simp [groupAdd, lookupGroup]
      · simp [groupAdd, lookupGroup, h, ih]

theorem lookupGroup_groupAdd_other (g : List (String × List String))
    (cam cam2 f : String) (hne : cam2 ≠ cam) :
    lookupGroup (groupAdd g cam f) cam2 = lookupGroup g cam2 := by
  have hne2 : ¬ cam = cam2 := fun hh => hne hh.symm
  induction g with
  | nil => simp [groupAdd, lookupGroup, hne2]
  | cons p rest ih =>
      obtain ⟨c, fs⟩ := p
      by_cases h : c = cam
      · subst h
        simp [groupAdd, lookupGroup, hne2]
      · by_cases h2 : c = cam2 <;> simp [groupAdd, lookupGroup, h, h2, ih, hne]

/-- The grouping loop puts under `cam` exactly the files whose camera name
is `cam`, in listing order. -/
theorem groupByCamera_lookup (files : List String) :
    ∀ (g0 : List (String × List String)) (cam : String),
      lookupGroup
        (files.foldl
          (fun g f =>
            match get_camera_name f with
            | some cam2 => groupAdd g cam2 f
            | none => g) g0) cam =
      lookupGroup g0 cam ++
        files.filter (fun f => get_camera_name f == some cam) := by
  induction files with
  | nil =>
      intro g0 cam
      simp
  | cons f rest ih =>
      intro g0 cam
      simp only [List.foldl_cons]
      cases hc : get_camera_name f with
      | none =>
          have hcond : (get_camera_name f == some cam) = false := by simp [hc]
          rw [List.filter_cons]
          simp only [hcond, Bool.false_eq_true, if_neg, not_false_iff]
          exact ih g0 cam
      | some cam2 =>
          simp only [hc]
          by_cases he : cam2 = cam
          · subst he
            rw [ih (groupAdd g0 cam2 f) cam2, lookupGroup_groupAdd_same]
            have hcond : (get_camera_name f == some cam2) = true := by simp [hc]
            simp [List.filter_cons, hcond]
          · rw [ih (groupAdd g0 cam2 f) cam, lookupGroup_groupAdd_other _ _ _ _
              (fun hh => he hh.symm)]
            have hcond : (get_camera_name f == some cam) = false := by simp [hc, he]
            simp [List.filter_cons, hcond]

theorem mem_of_lookupGroup (g : List (String × List String)) (cam : String)
    (h : lookupGroup g cam ≠ []) : (cam, lookupGroup g cam) ∈ g := by
  induction g with
  | nil => exact absurd rfl h
  | cons p rest ih =>
      obtain ⟨c, fs⟩ := p
      by_cases hc : c = cam
      · subst hc
        simp [lookupGroup]
      · simp only [lookupGroup, if_neg hc] at h ⊢
        exact List.mem_cons.mpr (Or.inr (ih h))

theorem processGroup_skipped_mono (keepSplit : Bool) (concatExit : String → Int)
    (cam : String) (fs : List String) (acc acc2 : CombineResult)
    (h : processGroup keepSplit concatExit cam fs acc = .ok acc2) :
    ∀ x ∈ acc.skipped, x ∈ acc2.skipped := by
  unfold processGroup at h
  by_cases hlen : 1 < fs.length
  · rw [if_pos hlen] at h
    cases hck : computeKeys fs with
    | error e => rw [hck] at h; exact absurd h (by simp)
    | ok pairs =>
        rw [hck] at h
        simp only [] at h
        by_cases hany : pairs.any (fun p => p.2.isNone) = true
        · rw [if_pos hany] at h
          exact absurd h (by simp)
        · rw [if_neg hany] at h
          obtain rfl := (Except.ok.injEq _ _).mp h
          intro x hx
          exact hx
  · rw [if_neg hlen] at h
    obtain rfl := (Except.ok.injEq _ _).mp h
    intro x hx
    simp only [List.mem_append]
    exact Or.inl hx

theorem combineGroups_skipped_mono (keepSplit : Bool) (concatExit : String → Int)
    (groups : List (String × List String)) :
    ∀ (acc r : CombineResult),
      combineGroups keepSplit concatExit groups acc = .ok r →
      ∀ x ∈ acc.skipped, x ∈ r.skipped := by
  induction groups with
  | nil =>
      intro acc r h
      simp only [combineGroups] at h
      obtain rfl := (Except.ok.injEq _ _).mp h
      intro x hx
      exact hx
  | cons g rest ih =>
      intro acc r h
      obtain ⟨cam, fs⟩ := g
      simp only [combineGroups] at h
      cases hpg : processGroup keepSplit concatExit cam fs acc with
      | error e => rw [hpg] at h; exact absurd h (by simp)
      | ok acc2 =>
          rw [hpg] at h
          intro x hx
          exact ih acc2 r h x
            (processGroup_skipped_mono keepSplit concatExit cam fs acc acc2 hpg x hx)

theorem combineGroups_single_skipped (keepSplit : Bool) (concatExit : String → Int)
    (groups : List (String × List String)) :
    ∀ (acc r : CombineResult),
      combineGroups keepSplit concatExit groups acc = .ok r →
      ∀ cam fs, (cam, fs) ∈ groups → fs.length ≤ 1 → cam ∈ r.skipped := by
  induction groups with
  | nil =>
      intro acc r h cam fs hmem
      exact absurd hmem (by simp)
  | cons g rest ih =>
      intro acc r h cam fs hmem hlen
      obtain ⟨cam0, fs0⟩ := g
      simp only [combineGroups] at h
      cases hpg : processGroup keepSplit concatExit cam0 fs0 acc with
      | error e => rw [hpg] at h; exact absurd h (by simp)
      | ok acc2 =>
          rw [hpg] at h
          rcases List.mem_cons.mp hmem with hhd | htl
          · rw [Prod.mk.injEq] at hhd
            obtain ⟨rfl, rfl⟩ := hhd
            have hsk : cam ∈ acc2.skipped := by
              unfold processGroup at hpg
              rw [if_neg (by omega)] at hpg
              obtain rfl := (Except.ok.injEq _ _).mp hpg
              simp
            exact combineGroups_skipped_mono keepSplit concatExit rest acc2 r h
              cam hsk
          · exact ih acc2 r h cam fs htl hlen

theorem computeKeys_mem (fs : List String) :
    ∀ pairs, computeKeys fs = .ok pairs →
      ∀ p ∈ pairs, extract_timestamp p.1 = .ok p.2 := by
  induction fs with
  | nil =>
      intro pairs h p hp
      simp only [computeKeys] at h
      obtain rfl := (Except.ok.injEq _ _).mp h
      exact absurd hp (by simp)
  | cons f rest ih =>
      intro pairs h p hp
      simp only [computeKeys] at h
      cases het : extract_timestamp f with
      | error e => rw [het] at h; exact absurd h (by simp)
      | ok k =>
          rw [het] at h
          cases hck : computeKeys rest with
          | error e => rw [hck] at h; exact absurd h (by simp)
          | ok restPairs =>
              rw [hck] at h
              simp only [] at h
              obtain rfl := (Except.ok.injEq _ _).mp h
              rcases List.mem_cons.mp hp with hhd | htl
              · subst hhd
                exact het
              · exact ih restPairs hck p htl

/-- The comparison `sort(key=extract_timestamp)` performs. -/
def keyLe (a b : String × DT) : Prop := dtKey a.2 ≤ dtKey b.2

theorem insertSorted_mem (x q : String × DT) (l : List (String × DT)) :
    q ∈ insertSorted x l ↔ q = x ∨ q ∈ l := by
  induction l with
  | nil => simp [insertSorted]
  | cons y ys ih =>
      by_cases h : dtKey x.2 ≤ dtKey y.2
      · simp [insertSorted, h]
      · simp only [insertSorted, if_neg h, List.mem_cons, ih]
        tauto

theorem sortPairs_mem (q : String × DT) (l : List (String × DT)) :
    q ∈ sortPairs l ↔ q ∈ l := by
  induction l with
  | nil => simp [sortPairs]
  | cons x xs ih =>
      simp only [sortPairs, insertSorted_mem, ih, List.mem_cons]

theorem insertSorted_pairwise (x : String × DT) (l : List (String × DT))
    (h : l.Pairwise keyLe) : (insertSorted x l).Pairwise keyLe := by
  induction l with
  | nil => simp [insertSorted, List.Pairwise]
  | cons y ys ih =>
      rcases List.pairwise_cons.mp h with ⟨hy, hys⟩
      by_cases hle : dtKey x.2 ≤ dtKey y.2
      · rw [insertSorted, if_pos hle]
        refine List.pairwise_cons.mpr ⟨?_, h⟩
        intro z hz
        rcases List.mem_cons.mp hz with rfl | hz2
        · exact hle
        · exact le_trans hle (hy z hz2)
      · rw [insertSorted, if_neg hle]
        refine List.pairwise_cons.mpr ⟨?_, ih hys⟩
        intro z hz
        rcases (insertSorted_mem x z ys).mp hz with rfl | hz2
        · exact le_of_not_le hle
        · exact hy z hz2

theorem sortPairs_pairwise (l : List (String × DT)) :
    (sortPairs l).Pairwise keyLe := by
  induction l with
  | nil => simp [sortPairs]
  | cons x xs ih => exact insertSorted_pairwise x (sortPairs xs) ih

/-- The sort key a filename yields (0 when none, which never happens for
grouped files). -/
def tsKeyOf (f : String) : Nat :=
  match extract_timestamp f with
  | .ok (some d) => dtKey d
  | _ => 0

/-- Invariant: each concatenation list recorded so far is ascending in the
extracted timestamps. -/
def sortedInv (acc : CombineResult) : Prop :=
  ∀ e ∈ acc.filelists, (e.2 : List String).Pairwise (fun a b => tsKeyOf a ≤ tsKeyOf b)

theorem processGroup_sortedInv (keepSplit : Bool) (concatExit : String → Int)
    (cam : String) (fs : List String) (acc acc2 : CombineResult)
    (h : processGroup keepSplit concatExit cam fs acc = .ok acc2)
    (hinv : sortedInv acc) : sortedInv acc2 := by
  unfold processGroup at h
  by_cases hlen : 1 < fs.length
  · rw [if_pos hlen] at h
    cases hck : computeKeys fs with
    | error e => rw [hck] at h; exact absurd h (by simp)
    | ok pairs =>
        rw [hck] at h
        simp only [] at h
        by_cases hany : pairs.any (fun p => p.2.isNone) = true
        · rw [if_pos hany] at h
          exact absurd h (by simp)
        · rw [if_neg hany] at h
          obtain rfl := (Except.ok.injEq _ _).mp h
          intro e he
          simp only [List.mem_append, List.mem_singleton] at he
          rcases he with he1 | rfl
          · exact hinv e he1
          · have hkey : ∀ q ∈ sortPairs (pairs.map (fun p => (p.1, p.2.getD dummyDT))),
                tsKeyOf q.1 = dtKey q.2 := by
              intro q hq
              rcases List.mem_map.mp ((sortPairs_mem q _).mp hq) with ⟨p, hpmem, rfl⟩
              cases hp2 : p.2 with
              | none =>
                  exact absurd (List.any_eq_true.mpr ⟨p, hpmem, by simp [hp2]⟩) hany
              | some d =>
                  have het := computeKeys_mem fs pairs hck p hpmem
                  rw [hp2] at het
                  simp only [hp2, Option.getD_some]
                  unfold tsKeyOf
                  rw [het]
            refine List.pairwise_map.mpr ?_
            refine List.Pairwise.imp_of_mem ?_ (sortPairs_pairwise _)
            intro a b ha hb hr
            rw [hkey a ha, hkey b hb]
            exact hr
  · rw [if_neg hlen] at h
    obtain rfl := (Except.ok.injEq _ _).mp h
    exact hinv

theorem combineGroups_sortedInv (keepSplit : Bool) (concatExit : String → Int)
    (groups : List (String × List String)) :
    ∀ (acc r : CombineResult),
      combineGroups keepSplit concatExit groups acc = .ok r →
      sortedInv acc → sortedInv r := by
  induction groups with
  | nil =>
      intro acc r h hinv
      simp only [combineGroups] at h
      exact ((Except.ok.injEq _ _).mp h) ▸ hinv
  | cons g rest ih =>
      intro acc r h hinv
      obtain ⟨cam, fs⟩ := g
      simp only [combineGroups] at h
      cases hpg : processGroup keepSplit concatExit cam fs acc with
      | error e => rw [hpg] at h; exact absurd h (by simp)
      | ok acc2 =>
          rw [hpg] at h
          exact ih acc2 r h
            (processGroup_sortedInv keepSplit concatExit cam fs acc acc2 hpg hinv)

/-- The §8 example folder, with the two Front clips deliberately listed
newest-first to exercise the timestamp sort. -/
def c8files : List String :=
  ["Front - 2024-01-01 - 10.05.00-0002.mp4",
   "Front - 2024-01-01 - 10.00.00-0001.mp4",
   "Back - 2024-01-01 - 10.00.00-0001.mp4"]

def c8out : CombineResult :=
  { outputs := ["Front - 2024-01-01 - 10.00.00-0001 - combined.mp4"],
    filelists := [("Front - 2024-01-01 - 10.00.00-0001 - combined.mp4",
                   ["Front - 2024-01-01 - 10.00.00-0001.mp4",
                    "Front - 2024-01-01 - 10.05.00-0002.mp4"])],
    concatCalls := [("Front - 2024-01-01 - 10.00.00-0001 - combined.mp4", 0)],
    deleted := [],
    skipped := ["Back"] }

/-- C8: matching files are grouped by camera name; a group of more than one
file is concatenated in ascending timestamp order under a name formed from
the earliest file with " - combined" before the extension; single-file
groups are left untouched.  First conjunct: on the §8 example (Front files
listed out of order) the two Front clips are combined - earliest first -
into "Front - 2024-01-01 - 10.00.00-0001 - combined.mp4" and the lone Back
clip is only marked skipped.  Second: in every completed run, every
camera whose group has at most one file is recorded as skipped (in
particular every camera matching exactly one listed file).  Third: every
recorded concatenation list is ascending in the extracted timestamps. -/
theorem combine_grouping_spec :
    combine_videos c8files true (fun _ => 0) = .ok c8out ∧
    (∀ (files : List String) (keepSplit : Bool) (concatExit : String → Int)
       (r : CombineResult) (cam : String) (fs : List String),
       combine_videos files keepSplit concatExit = .ok r →
       (cam, fs) ∈ groupByCamera (files.filter (fun f => pyEndsWith f ".mp4")) →
       fs.length ≤ 1 → cam ∈ r.skipped) ∧
    (∀ (files : List String) (keepSplit : Bool) (concatExit : String → Int)
       (r : CombineResult) (out : String) (lst : List String),
       combine_videos files keepSplit concatExit = .ok r →
       (out, lst) ∈ r.filelists →
       lst.Pairwise (fun a b => tsKeyOf a ≤ tsKeyOf b)) := by
  refine ⟨rfl, ?_, ?_⟩
  · intro files keepSplit concatExit r cam fs h hmem hlen
    unfold combine_videos at h
    by_cases hemp : (files.filter (fun f => pyEndsWith f ".mp4")).isEmpty = true
    · rw [List.isEmpty_iff.mp hemp] at hmem
      exact absurd hmem (by simp [groupByCamera])
    · rw [if_neg hemp] at h
      exact combineGroups_single_skipped keepSplit concatExit _ emptyCombine r h
        cam fs hmem hlen
  · intro files keepSplit concatExit r out lst h hmem
    unfold combine_videos at h
    by_cases hemp : (files.filter (fun f => pyEndsWith f ".mp4")).isEmpty = true
    · rw [if_pos hemp] at h
      obtain rfl := (Except.ok.injEq _ _).mp h
      exact absurd hmem (by simp [emptyCombine])
    · rw [if_neg hemp] at h
      exact combineGroups_sortedInv keepSplit concatExit _ emptyCombine r h
        (fun e he => absurd he (by simp [emptyCombine])) (out, lst) hmem

def c8state : CombineResult :=
  match combine_videos c8files true (fun _ => 0) with
  | .ok r => r
  | .error _ => emptyCombine

theorem combine_grouping_spec_witness :
    ("Back" ∈ c8state.skipped) ∧
    (["Front - 2024-01-01 - 10.00.00-0001.mp4",
      "Front - 2024-01-01 - 10.05.00-0002.mp4"] : List String).Pairwise
      (fun a b => tsKeyOf a ≤ tsKeyOf b) :=
  ⟨combine_grouping_spec.2.1 c8files true (fun _ => 0) c8state "Back"
      ["Back - 2024-01-01 - 10.00.00-0001.mp4"] rfl (by decide) (by decide),
   combine_grouping_spec.2.2 c8files true (fun _ => 0) c8state
      "Front - 2024-01-01 - 10.00.00-0001 - combined.mp4"
      ["Front - 2024-01-01 - 10.00.00-0001.mp4",
       "Front - 2024-01-01 - 10.05.00-0002.mp4"] rfl (by decide)⟩

/-! ### Camera pattern implies timestamp pattern (C10) -/

theorem dropLit_sound (lit : List Char) :
    ∀ cs rest, dropLit lit cs = some rest → cs = lit ++ rest := by
  induction lit with
  | nil =>
      intro cs rest h
      simp only [dropLit] at h
      rw [(Option.some.injEq _ _).mp h]
      rfl
  | cons l ls ih =>
      intro cs rest h
      cases cs with
      | nil => exact absurd h (by simp [dropLit])
      | cons c cs2 =>
          unfold dropLit at h
          by_cases hc : c = l
          · rw [if_pos hc] at h
            subst hc
            rw [List.cons_append]
            rw [← ih cs2 rest h]
          · rw [if_neg hc] at h
            exact absurd h (by simp)

/-- The fixed tail of the camera pattern starts with " - " followed by text
the timestamp pattern matches. -/
theorem tailPat_tsAt (suf : List Char) (h : tailPat suf = true) :
    ∃ t, dropLit [' ', '-', ' '] suf = some t ∧ (tsAt t).isSome = true := by
  unfold tailPat tailPatO at h
  cases h0 : dropLit [' ', '-', ' '] suf with
  | none => rw [h0] at h; simp at h
  | some t =>
  rw [h0] at h
  simp only [] at h
  refine ⟨t, rfl, ?_⟩
  cases h1 : takeDigits 4 t with
  | none => rw [h1] at h; simp at h
  | some p1 =>
  obtain ⟨y, cs2⟩ := p1
  rw [h1] at h
  simp only [] at h
  cases h2 : dropLit ['-'] cs2 with
  | none => rw [h2] at h; simp at h
  | some cs3 =>
  rw [h2] at h
  simp only [] at h
  cases h3 : takeDigits 2 cs3 with
  | none => rw [h3] at h; simp at h
  | some p2 =>
  obtain ⟨mo, cs4⟩ := p2
  rw [h3] at h
  simp only [] at h
  cases h4 : dropLit ['-'] cs4 with
  | none => rw [h4] at h; simp at h
  | some cs5 =>
  rw [h4] at h
  simp only [] at h
  cases h5 : takeDigits 2 cs5 with
  | none => rw [h5] at h; simp at h
  | some p3 =>
  obtain ⟨d, cs6⟩ := p3
  rw [h5] at h
  simp only [] at h
  cases h6 : dropLit [' ', '-', ' '] cs6 with
  | none => rw [h6] at h; simp at h
  | some cs7 =>
  rw [h6] at h
  simp only [] at h
  cases h7 : takeDigits 2 cs7 with
  | none => rw [h7] at h; simp at h
  | some p4 =>
  obtain ⟨hh, cs8⟩ := p4
  rw [h7] at h
  simp only [] at h
  cases h8 : dropLit ['.'] cs8 with
  | none => rw [h8] at h; simp at h
  | some cs9 =>
  rw [h8] at h
  simp only [] at h
  cases h9 : takeDigits 2 cs9 with
  | none => rw [h9] at h; simp at h
  | some p5 =>
  obtain ⟨mi, cs10⟩ := p5
  rw [h9] at h
  simp only [] at h
  cases h10 : dropLit ['.'] cs10 with
  | none => rw [h10] at h; simp at h
  | some cs11 =>
  rw [h10] at h
  simp only [] at h
  cases h11 : takeDigits 2 cs11 with
  | none => rw [h11] at h; simp at h
  | some p6 =>
  obtain ⟨se, cs12⟩ := p6
  unfold tsAt
  rw [h1]
  simp only []
  rw [h2]
  simp only []
  rw [h3]
  simp only []
  rw [h4]
  simp only []
  rw [h5]
  simp only []
  rw [h6]
  simp only []
  rw [h7]
  simp only []
  rw [h8]
  simp only []
  rw [h9]
  simp only []
  rw [h10]
  simp only []
  rw [h11]
  simp

/-- A successful lazy-group match splits the string at a position whose
remainder the fixed tail pattern accepts. -/
theorem camSplit_decomp :
    ∀ (l acc out : List Char), camSplit acc l = some out →
      ∃ pre c suf, l = pre ++ c :: suf ∧ tailPat suf = true := by
  intro l
  induction l with
  | nil =>
      intro acc out h
      exact absurd h (by simp [camSplit])
  | cons c rest ih =>
      intro acc out h
      unfold camSplit at h
      by_cases hnl : c = '\n'
      · rw [if_pos hnl] at h
        exact absurd h (by simp)
      · rw [if_neg hnl] at h
        by_cases ht : tailPat rest = true
        · exact ⟨[], c, rest, rfl, ht⟩
        · rw [if_neg ht] at h
          obtain ⟨pre, c2, suf, hdec, htail⟩ := ih (c :: acc) out h
          exact ⟨c :: pre, c2, suf, by rw [List.cons_append, hdec], htail⟩

/-- `re.search` finds a match whenever the pattern matches at some
position. -/
theorem tsSearch_append (t : List Char) (raw : TsRaw) (h : tsAt t = some raw) :
    ∀ pre, (tsSearch (pre ++ t)).isSome = true := by
  have hne : t ≠ [] := by
    intro hnil
    rw [hnil] at h
    exact absurd h (by simp [tsAt, takeDigits])
  intro pre
  induction pre with
  | nil =>
      simp only [List.nil_append]
      cases t with
      | nil => exact absurd rfl hne
      | cons c rest =>
          unfold tsSearch
          rw [h]
          simp
  | cons p ps ih =>
      rw [List.cons_append]
      unfold tsSearch
      cases hAt : tsAt (p :: (ps ++ t)) with
      | some r => simp
      | none => simpa using ih

/-- C10 (amended): every filename the camera pattern accepts also contains
a match of the timestamp pattern, so for every grouped file
`extract_timestamp` never returns `None` and the group sort never compares
a `None` key.  (It is not true that the match always yields a parsed
datetime: calendar-invalid digits make `strptime` raise `ValueError`, see
the counterexample.) -/
theorem camera_match_timestamp (f : String) (cam : String)
    (h : get_camera_name f = some cam) :
    (tsSearch f.data).isSome = true ∧ extract_timestamp f ≠ .ok none := by
  unfold get_camera_name at h
  cases hcs : camSplit [] f.data with
  | none => rw [hcs] at h; exact absurd h (by simp)
  | some cs =>
      obtain ⟨pre, c, suf, hdecomp, htail⟩ := camSplit_decomp f.data [] cs hcs
      obtain ⟨t, hdrop, htsat⟩ := tailPat_tsAt suf htail
      obtain ⟨raw, hraw⟩ := Option.isSome_iff_exists.mp htsat
      have hsuf : suf = [' ', '-', ' '] ++ t := dropLit_sound _ _ _ hdrop
      have hsearch : (tsSearch f.data).isSome = true := by
        rw [hdecomp, hsuf]
        rw [show pre ++ c :: ([' ', '-', ' '] ++ t)
              = (pre ++ c :: [' ', '-', ' ']) ++ t by simp]
        exact tsSearch_append t raw hraw _
      refine ⟨hsearch, ?_⟩
      unfold extract_timestamp
      obtain ⟨raw2, hraw2⟩ := Option.isSome_iff_exists.mp hsearch
      rw [hraw2]
      split
      · simp_all
      · split
        · simp
        · simp

/-- C10 as stated is false on the code at this input: the camera pattern
accepts the filename (month digits "13" are still digits), the timestamp
pattern matches, but `strptime` raises `ValueError` on month 13 instead of
yielding a datetime - a two-file group of such names crashes the whole
combination (with `ValueError`, not a `None` comparison). -/
theorem camera_match_timestamp_counterexample :
    get_camera_name "Cam - 2024-13-01 - 10.00.00-0001.mp4" = some "Cam" ∧
    extract_timestamp "Cam - 2024-13-01 - 10.00.00-0001.mp4" = .error .valueError ∧
    combine_videos ["Cam - 2024-13-01 - 10.00.00-0001.mp4",
                    "Cam - 2024-13-01 - 10.05.00-0002.mp4"] true (fun _ => 0)
      = .error .valueError :=
  ⟨rfl, rfl, rfl⟩

theorem camera_match_timestamp_witness :
    (tsSearch ("Front - 2024-01-01 - 10.00.00-0001.mp4" : String).data).isSome = true ∧
    extract_timestamp "Front - 2024-01-01 - 10.00.00-0001.mp4" ≠ .ok none :=
  camera_match_timestamp "Front - 2024-01-01 - 10.00.00-0001.mp4" "Front" rfl

end UPEM
